import Mathlib

/-!
Verification of the hash-table symbol table (symtablehash.c).

Shallow embedding: keys are byte lists (C strings without their
terminator), values are the numeric value of the stored pointer
(0 stands for NULL), `size_t` arithmetic wraps modulo 2^64, and heap
allocation is modelled by explicit oracles saying which `malloc` /
`calloc` calls succeed.
-/

namespace SymTableHash

/-- Modulus of `size_t` arithmetic (64-bit platform). -/
def WORD : Nat := 2 ^ 64

/-- The fixed sequence of bucket counts (`SIZES` in symtablehash.c). -/
def SIZES : List Nat := [509, 1021, 2039, 4093, 8191, 16381, 32749, 65521]

/-- The maximum number of buckets (`MAX_SIZE` in symtablehash.c). -/
def MAX_SIZE : Nat := 65521

/-- One key/value binding.  The chain pointer of the C struct is
represented by the position in the chain list of the bucket. -/
structure Binding where
  Key : List Nat
  Value : Nat
deriving DecidableEq, Repr

/-- The symbol table: bucket array, element count, and index into
`SIZES` giving the current bucket count. -/
structure SymTable where
  Bindings : List (List Binding)
  size : Nat
  bucketCountOrder : Nat
deriving DecidableEq, Repr

/-- Number of buckets of the current tier, `SIZES[bucketCountOrder]`. -/
def numBuckets (t : SymTable) : Nat := SIZES.getD t.bucketCountOrder 0

/-- Constructor `SymTable_new` (the successful-allocation path): empty bucket
array of `SIZES[0]` buckets, size 0, tier 0. -/
def SymTable_new : SymTable :=
  { Bindings := List.replicate (SIZES.getD 0 0) [], size := 0, bucketCountOrder := 0 }

/-- Hash `SymTable_hash`: fold `uHash = uHash * 65599 + byte` over the key
bytes with `size_t` wraparound, then reduce modulo the bucket count. -/
def SymTable_hash (pcKey : List Nat) (uBucketCount : Nat) : Nat :=
  (pcKey.foldl (fun uHash c => (uHash * 65599 + c) % WORD) 0) % uBucketCount

/-- Lookup helper `SymTable_find`: scan the chain of the bucket the key
hashes to for the first
binding whose key compares equal (`strcmp == 0`). -/
def SymTable_find (t : SymTable) (pcKey : List Nat) : Option Binding :=
  (t.Bindings.getD (SymTable_hash pcKey (numBuckets t)) []).find? (fun b => b.Key == pcKey)

/-- Membership test `SymTable_contains`. -/
def SymTable_contains (t : SymTable) (pcKey : List Nat) : Bool :=
  (SymTable_find t pcKey).isSome

/-- Lookup `SymTable_get`: the stored value pointer, or NULL (0) when the key
is absent. -/
def SymTable_get (t : SymTable) (pcKey : List Nat) : Nat :=
  match SymTable_find t pcKey with
  | none => 0
  | some b => b.Value

/-- Size query `SymTable_getLength`. -/
def SymTable_getLength (t : SymTable) : Nat := t.size

/-- In-place value update of the first binding of a chain whose key
matches (the binding `SymTable_find` returns). -/
def replaceChain (pcKey : List Nat) (v : Nat) : List Binding → List Binding
  | [] => []
  | b :: rest =>
      if b.Key == pcKey then { b with Value := v } :: rest
      else b :: replaceChain pcKey v rest

/-- Value update `SymTable_replace`: returns the updated table and the old value
pointer (0 = NULL = not found). -/
def SymTable_replace (t : SymTable) (pcKey : List Nat) (v : Nat) : SymTable × Nat :=
  match SymTable_find t pcKey with
  | none => (t, 0)
  | some b =>
      ({ t with
          Bindings := t.Bindings.set (SymTable_hash pcKey (numBuckets t))
            (replaceChain pcKey v
              (t.Bindings.getD (SymTable_hash pcKey (numBuckets t)) [])) }, b.Value)

/-- Unlink the first binding of a chain whose key matches, returning
its value and the remaining chain. -/
def removeChain (pcKey : List Nat) : List Binding → Option (Nat × List Binding)
  | [] => none
  | b :: rest =>
      if b.Key == pcKey then some (b.Value, rest)
      else
        match removeChain pcKey rest with
        | none => none
        | some (v, rest2) => some (v, b :: rest2)

/-- Removal `SymTable_remove`: returns the updated table and the removed value
pointer (0 = NULL = not found, table unchanged). -/
def SymTable_remove (t : SymTable) (pcKey : List Nat) : SymTable × Nat :=
  match removeChain pcKey (t.Bindings.getD (SymTable_hash pcKey (numBuckets t)) []) with
  | none => (t, 0)
  | some (v, chain) =>
      ({ t with
          Bindings := t.Bindings.set (SymTable_hash pcKey (numBuckets t)) chain,
          size := t.size - 1 }, v)

/-- Inner loop of the rehash walk, over one chain.
`alloc c` tells whether the `c`-th allocation of this expand call
succeeds; each relocated binding consumes one `malloc` (the Binding)
and one `calloc` (the key copy).  `none` models abandoning the rehash
after freeing the partially built array. -/
def relocChain (alloc : Nat → Bool) (newLen : Nat) :
    List Binding → List (List Binding) × Nat → Option (List (List Binding) × Nat)
  | [], st => some st
  | b :: rest, (arr, c) =>
      if alloc c = false then none
      else if alloc (c + 1) = false then none
      else
        relocChain alloc newLen rest
          (arr.set (SymTable_hash b.Key newLen)
            (⟨b.Key, b.Value⟩ :: arr.getD (SymTable_hash b.Key newLen) []), c + 2)

/-- Outer loop of the rehash walk, over all buckets. -/
def relocBuckets (alloc : Nat → Bool) (newLen : Nat) :
    List (List Binding) → List (List Binding) × Nat → Option (List (List Binding) × Nat)
  | [], st => some st
  | chain :: rest, st =>
      match relocChain alloc newLen chain st with
      | none => none
      | some st2 => relocBuckets alloc newLen rest st2

/-- Rehash `SymTable_expand`: no-op at the final tier, or when the new bucket
array cannot be allocated (`alloc 0`), or when any allocation of the
relocation walk fails; otherwise the rebuilt array at the next tier. -/
def SymTable_expand (alloc : Nat → Bool) (t : SymTable) : SymTable :=
  if SIZES.getD t.bucketCountOrder 0 = MAX_SIZE then t
  else if alloc 0 = false then t
  else
    match relocBuckets alloc (SIZES.getD (t.bucketCountOrder + 1) 0) t.Bindings
        (List.replicate (SIZES.getD (t.bucketCountOrder + 1) 0) [], 1) with
    | none => t
    | some (arr, _) =>
        { Bindings := arr, size := t.size, bucketCountOrder := t.bucketCountOrder + 1 }

/-- Which allocations of one `SymTable_put` call succeed: the Binding
`malloc`, the key-copy `calloc`, and the oracle handed to the expand
call it may trigger. -/
structure PutAlloc where
  bindingOk : Bool
  keyOk : Bool
  expandAlloc : Nat → Bool

/-- The all-allocations-succeed oracle. -/
def allocOk : PutAlloc := ⟨true, true, fun _ => true⟩

/-- Insertion `SymTable_put`: reject a present key, fail on allocation failure of
the new Binding or the key copy, expand when `size >= SIZES[order]`,
then link the new binding at the head of the chain of its bucket. -/
def SymTable_put (a : PutAlloc) (t : SymTable) (pcKey : List Nat) (v : Nat) :
    SymTable × Bool :=
  if SymTable_contains t pcKey then (t, false)
  else if a.bindingOk = false then (t, false)
  else if a.keyOk = false then (t, false)
  else
    let t1 := if numBuckets t ≤ t.size then SymTable_expand a.expandAlloc t else t
    ({ t1 with
        Bindings := t1.Bindings.set (SymTable_hash pcKey (numBuckets t1))
          (⟨pcKey, v⟩ :: t1.Bindings.getD (SymTable_hash pcKey (numBuckets t1)) []),
        size := t1.size + 1 }, true)

/-- Traversal `SymTable_map`: outer loop over buckets in ascending index order,
inner loop over each chain from head to tail, threading the extra
context of the caller through the visitor. -/
def SymTable_map {α : Type} (t : SymTable) (pfApply : List Nat → Nat → α → α)
    (pvExtra : α) : α :=
  t.Bindings.foldl (fun acc chain => chain.foldl (fun a2 b => pfApply b.Key b.Value a2) acc)
    pvExtra

/-- All bindings of the table, in traversal order (buckets ascending,
each chain head to tail). -/
def bindingsList (t : SymTable) : List Binding := t.Bindings.flatten

/-- The (key, value) pairs `SymTable_map` visits, in visit order. -/
def mapVisits (t : SymTable) : List (List Nat × Nat) :=
  (bindingsList t).map (fun b => (b.Key, b.Value))

/-- Key `k` is bound to value `v`: the find helper returns that binding. -/
def MapsTo (t : SymTable) (k : List Nat) (v : Nat) : Prop :=
  SymTable_find t k = some ⟨k, v⟩

/-- Every binding sits in the bucket its key hashes to. -/
def bucketOK (t : SymTable) : Prop :=
  ∀ i, i < t.Bindings.length →
    ∀ b ∈ t.Bindings.getD i [], SymTable_hash b.Key (numBuckets t) = i

/-- The representation invariant of a valid table. -/
def Inv (t : SymTable) : Prop :=
  t.bucketCountOrder < SIZES.length ∧
  t.Bindings.length = numBuckets t ∧
  bucketOK t ∧
  ((bindingsList t).map Binding.Key).Nodup ∧
  t.size = (bindingsList t).length

instance (t : SymTable) : Decidable (Inv t) := by
  unfold Inv bucketOK
  infer_instance

/-- Tables reachable from `SymTable_new` by the mutating operations,
with arbitrary allocation outcomes. -/
inductive Reachable : SymTable → Prop
  | new : Reachable SymTable_new
  | put (a : PutAlloc) (k : List Nat) (v : Nat) {t : SymTable} :
      Reachable t → Reachable (SymTable_put a t k v).1
  | replace (k : List Nat) (v : Nat) {t : SymTable} :
      Reachable t → Reachable (SymTable_replace t k v).1
  | remove (k : List Nat) {t : SymTable} :
      Reachable t → Reachable (SymTable_remove t k).1

/-- Building a table by a sequence of puts (all allocations succeed). -/
def buildTable (ps : List (List Nat × Nat)) : SymTable :=
  ps.foldl (fun t p => (SymTable_put allocOk t p.1 p.2).1) SymTable_new

/-- One relocation step of the rehash walk: link a copy of binding `b`
at the head of the bucket its key hashes to under the new bucket count. -/
def place (n : Nat) (arr : List (List Binding)) (b : Binding) : List (List Binding) :=
  arr.set (SymTable_hash b.Key n) (b :: arr.getD (SymTable_hash b.Key n) [])

/-- Reference bucket computation, written from the words of the spec
(section 4.1, hash function): accumulate hash times 65599 plus byte
over the key bytes with wraparound unsigned arithmetic, final bucket
is the accumulated hash modulo the capacity. -/
def refBucket (pcKey : List Nat) (capacity : Nat) : Nat :=
  ((pcKey.foldl (fun h c => h * 65599 + c) 0) % WORD) % capacity

/-- Fixture: 510 distinct two-byte keys with values, enough to cross
the first capacity tier of 509. -/
def c1ps : List (List Nat × Nat) :=
  (List.range 510).map (fun i => ([i / 256, i % 256], i + 1))

/-- Fixture: a table holding one binding, key byte 1, value 5. -/
def tA : SymTable := (SymTable_put allocOk SymTable_new [1] 5).1

/-- Fixture: a table holding one binding, key byte 2, value 6. -/
def tB : SymTable := (SymTable_put allocOk SymTable_new [2] 6).1

/-- Fixture: an empty table at the final capacity tier. -/
def t7 : SymTable :=
  { Bindings := List.replicate 65521 [], size := 0, bucketCountOrder := 7 }

/-- Fixture: the two bindings of the map-traversal test. -/
def c9ps : List (List Nat × Nat) := [([97], 1), ([98], 2)]

/-- Oracle: the Binding malloc of put fails. -/
def aNoBinding : PutAlloc := ⟨false, true, fun _ => true⟩

/-- Oracle: the key-copy calloc of put fails. -/
def aNoKey : PutAlloc := ⟨true, false, fun _ => true⟩

/-- Oracle: every allocation inside expand fails. -/
def aNoExpand : PutAlloc := ⟨true, true, fun _ => false⟩

/-! ## Helper lemmas: the size sequence and the hash -/

theorem SIZES_pos : ∀ i < SIZES.length, 0 < SIZES.getD i 0 := by decide

theorem SIZES_succ_lt :
    ∀ i < SIZES.length, SIZES.getD i 0 ≠ MAX_SIZE → i + 1 < SIZES.length := by decide

theorem hash_lt (k : List Nat) (n : Nat) (h : 0 < n) : SymTable_hash k n < n :=
  Nat.mod_lt _ h

/-! ## Helper lemmas: lists of buckets -/

theorem getD_set_self {α : Type} (l : List α) (i : Nat) (h : i < l.length) (x d : α) :
    (l.set i x).getD i d = x := by
  rw [List.getD_eq_getElem _ d (by simpa using h)]
  exact List.getElem_set_self _

theorem getD_set_ne {α : Type} (l : List α) (i j : Nat) (hne : i ≠ j) (x d : α) :
    (l.set i x).getD j d = l.getD j d := by
  by_cases hj : j < l.length
  · rw [List.getD_eq_getElem _ d (by simpa using hj), List.getD_eq_getElem _ d hj]
    exact List.getElem_set_ne hne _
  · rw [List.getD_eq_default _ d (by simpa using Nat.le_of_not_lt hj),
      List.getD_eq_default _ d (Nat.le_of_not_lt hj)]

theorem getD_replicate_nil {α : Type} (n i : Nat) :
    (List.replicate n ([] : List α)).getD i [] = [] := by
  by_cases h : i < n
  · rw [List.getD_eq_getElem _ _ (by simpa using h)]
    exact List.getElem_replicate ..
  · exact List.getD_eq_default _ _ (by simpa using Nat.le_of_not_lt h)

theorem set_getD_self {α : Type} :
    ∀ (l : List α) (i : Nat), i < l.length → ∀ d, l.set i (l.getD i d) = l := by
  intro l
  induction l with
  | nil => intro i hi; simp at hi
  | cons hd tl ih =>
      intro i hi d
      cases i with
      | zero => simp
      | succ j =>
          have hj : j < tl.length := by simpa using hi
          rw [List.getD_cons_succ, List.set_cons_succ, ih j hj d]

theorem flatten_replicate_nil {α : Type} :
    ∀ n : Nat, (List.replicate n ([] : List α)).flatten = [] := by
  intro n
  induction n with
  | zero => simp
  | succ m ih => simpa [List.replicate_succ] using ih

theorem count_flatten_set {α : Type} [DecidableEq α] :
    ∀ (l : List (List α)) (i : Nat), i < l.length → ∀ (c : List α) (y : α),
      (l.set i c).flatten.count y + (l.getD i []).count y
        = c.count y + l.flatten.count y := by
  intro l
  induction l with
  | nil => intro i hi; simp at hi
  | cons hd tl ih =>
      intro i hi c y
      cases i with
      | zero => simp [List.count_append]; omega
      | succ j =>
          have hj : j < tl.length := by simpa using hi
          have h2 := ih j hj c y
          simp only [List.set_cons_succ, List.flatten_cons, List.count_append,
            List.getD_cons_succ] at h2 ⊢
          omega

theorem length_flatten_set {α : Type} :
    ∀ (l : List (List α)) (i : Nat), i < l.length → ∀ c : List α,
      (l.set i c).flatten.length + (l.getD i []).length
        = c.length + l.flatten.length := by
  intro l
  induction l with
  | nil => intro i hi; simp at hi
  | cons hd tl ih =>
      intro i hi c
      cases i with
      | zero => simp [List.length_append]; omega
      | succ j =>
          have hj : j < tl.length := by simpa using hi
          have h2 := ih j hj c
          simp only [List.set_cons_succ, List.flatten_cons, List.length_append,
            List.getD_cons_succ] at h2 ⊢
          omega

theorem countP_getD_le_flatten {α : Type} (p : α → Bool) :
    ∀ (l : List (List α)) (i : Nat), (l.getD i []).countP p ≤ l.flatten.countP p := by
  intro l
  induction l with
  | nil => intro i; simp
  | cons hd tl ih =>
      intro i
      cases i with
      | zero => simp [List.countP_append]
      | succ j =>
          calc (tl.getD j []).countP p ≤ tl.flatten.countP p := ih j
            _ ≤ ((hd :: tl).flatten).countP p := by simp [List.countP_append]

theorem mem_flatten_getD {α : Type} (l : List (List α)) (b : α) :
    b ∈ l.flatten ↔ ∃ i, i < l.length ∧ b ∈ l.getD i [] := by
  rw [List.mem_flatten]
  constructor
  · rintro ⟨c, hc, hb⟩
    obtain ⟨i, hi, hEq⟩ := List.mem_iff_getElem.mp hc
    exact ⟨i, hi, by rw [List.getD_eq_getElem _ _ hi, hEq]; exact hb⟩
  · rintro ⟨i, hi, hb⟩
    refine ⟨l.getD i [], ?_, hb⟩
    rw [List.getD_eq_getElem _ _ hi]
    exact List.getElem_mem hi

/-! ## Helper lemmas: chain searching -/

theorem find?_key_some {c : List Binding} {k : List Nat} {b : Binding}
    (h : c.find? (fun x => x.Key == k) = some b) : b.Key = k ∧ b ∈ c :=
  ⟨by simpa using List.find?_some h, List.mem_of_find?_eq_some h⟩

theorem find?_key_unique :
    ∀ (c : List Binding) (k : List Nat) (b : Binding),
      c.countP (fun x => x.Key == k) ≤ 1 → b ∈ c → b.Key = k →
      c.find? (fun x => x.Key == k) = some b := by
  intro c
  induction c with
  | nil => intro k b _ hb _; simp at hb
  | cons hd tl ih =>
      intro k b hcount hb hk
      by_cases hhd : (hd.Key == k) = true
      · have hfind : List.find? (fun x => x.Key == k) (hd :: tl) = some hd :=
          List.find?_cons_of_pos _ hhd
        rw [hfind]
        rcases List.mem_cons.mp hb with rfl | hbtl
        · rfl
        · exfalso
          have h1 : 0 < tl.countP (fun x => x.Key == k) :=
            List.countP_pos_iff.mpr ⟨b, hbtl, by simp [hk]⟩
          have hc2 : List.countP (fun x => x.Key == k) (hd :: tl)
              = List.countP (fun x => x.Key == k) tl + 1 :=
            List.countP_cons_of_pos _ _ hhd
          rw [hc2] at hcount
          omega
      · have hfind : List.find? (fun x => x.Key == k) (hd :: tl)
            = List.find? (fun x => x.Key == k) tl :=
          List.find?_cons_of_neg _ hhd
        rw [hfind]
        rcases List.mem_cons.mp hb with rfl | hbtl
        · exact absurd (by simp [hk]) hhd
        · have hc2 : List.countP (fun x => x.Key == k) (hd :: tl)
              = List.countP (fun x => x.Key == k) tl :=
            List.countP_cons_of_neg _ _ hhd
          exact ih k b (by rwa [hc2] at hcount) hbtl hk

/-! ## Helper lemmas: consequences of the invariant -/

theorem Inv.order_lt {t : SymTable} (h : Inv t) : t.bucketCountOrder < SIZES.length := h.1

theorem Inv.len_eq {t : SymTable} (h : Inv t) : t.Bindings.length = numBuckets t := h.2.1

theorem Inv.buckets {t : SymTable} (h : Inv t) : bucketOK t := h.2.2.1

theorem Inv.keys_nodup {t : SymTable} (h : Inv t) :
    ((bindingsList t).map Binding.Key).Nodup := h.2.2.2.1

theorem Inv.size_eq {t : SymTable} (h : Inv t) : t.size = (bindingsList t).length :=
  h.2.2.2.2

theorem Inv.buckets_pos {t : SymTable} (h : Inv t) : 0 < numBuckets t :=
  SIZES_pos _ h.1

theorem Inv.hash_lt_len {t : SymTable} (h : Inv t) (k : List Nat) :
    SymTable_hash k (numBuckets t) < t.Bindings.length := by
  rw [h.len_eq]
  exact hash_lt k _ h.buckets_pos

theorem countP_key_le_one_of_nodup :
    ∀ l : List Binding, (l.map Binding.Key).Nodup →
      ∀ k : List Nat, l.countP (fun b => b.Key == k) ≤ 1 := by
  intro l
  induction l with
  | nil => intro _ k; simp
  | cons hd tl ih =>
      intro hnd k
      rw [List.map_cons, List.nodup_cons] at hnd
      by_cases hhd : (hd.Key == k) = true
      · have hke : hd.Key = k := by simpa using hhd
        have hzero : tl.countP (fun b => b.Key == k) = 0 := by
          rw [List.countP_eq_zero]
          intro b hb hbk
          exact hnd.1 (List.mem_map.mpr ⟨b, hb, by simpa [hke] using hbk⟩)
        have hc2 : List.countP (fun b => b.Key == k) (hd :: tl)
            = List.countP (fun b => b.Key == k) tl + 1 :=
          List.countP_cons_of_pos _ _ hhd
        omega
      · have hc2 : List.countP (fun b => b.Key == k) (hd :: tl)
            = List.countP (fun b => b.Key == k) tl :=
          List.countP_cons_of_neg _ _ hhd
        rw [hc2]
        exact ih hnd.2 k

theorem countP_key_le_one {t : SymTable} (h : Inv t) (k : List Nat) :
    (bindingsList t).countP (fun b => b.Key == k) ≤ 1 :=
  countP_key_le_one_of_nodup _ h.keys_nodup k

theorem mem_bucket_of_mem {t : SymTable} (h : Inv t) {b : Binding}
    (hb : b ∈ bindingsList t) :
    b ∈ t.Bindings.getD (SymTable_hash b.Key (numBuckets t)) [] := by
  obtain ⟨i, hi, hbi⟩ := (mem_flatten_getD _ _).mp hb
  have hhash := h.buckets i hi b hbi
  rwa [hhash]

theorem find_eq_some_iff {t : SymTable} (h : Inv t) (k : List Nat) (b : Binding) :
    SymTable_find t k = some b ↔ b ∈ bindingsList t ∧ b.Key = k := by
  unfold SymTable_find
  constructor
  · intro hf
    obtain ⟨hk, hmem⟩ := find?_key_some hf
    refine ⟨?_, hk⟩
    exact (mem_flatten_getD _ _).mpr ⟨_, h.hash_lt_len k, hmem⟩
  · rintro ⟨hb, hk⟩
    have hmemb := mem_bucket_of_mem h hb
    rw [hk] at hmemb
    exact find?_key_unique _ k b
      (le_trans (countP_getD_le_flatten _ _ _) (countP_key_le_one h k)) hmemb hk

theorem find_eq_none_iff {t : SymTable} (h : Inv t) (k : List Nat) :
    SymTable_find t k = none ↔ ∀ b ∈ bindingsList t, b.Key ≠ k := by
  unfold SymTable_find
  rw [List.find?_eq_none]
  constructor
  · intro hnone b hb hk
    have hmemb := mem_bucket_of_mem h hb
    rw [hk] at hmemb
    exact hnone b hmemb (by simp [hk])
  · intro hall b hb hbeq
    have hk : b.Key = k := by simpa using hbeq
    have hbl : b ∈ bindingsList t :=
      (mem_flatten_getD _ _).mpr ⟨_, h.hash_lt_len k, hb⟩
    exact hall b hbl hk

theorem contains_eq_false_iff_find (t : SymTable) (k : List Nat) :
    SymTable_contains t k = false ↔ SymTable_find t k = none := by
  unfold SymTable_contains
  cases hf : SymTable_find t k <;> simp

theorem contains_false_iff {t : SymTable} (h : Inv t) (k : List Nat) :
    SymTable_contains t k = false ↔ ∀ b ∈ bindingsList t, b.Key ≠ k := by
  rw [contains_eq_false_iff_find, find_eq_none_iff h]

theorem contains_true_iff {t : SymTable} (h : Inv t) (k : List Nat) :
    SymTable_contains t k = true ↔ ∃ b, b ∈ bindingsList t ∧ b.Key = k := by
  unfold SymTable_contains
  rw [Option.isSome_iff_exists]
  constructor
  · rintro ⟨b, hf⟩
    exact ⟨b, (find_eq_some_iff h k b).mp hf⟩
  · rintro ⟨b, hb, hk⟩
    exact ⟨b, (find_eq_some_iff h k b).mpr ⟨hb, hk⟩⟩

theorem find_congr {t t2 : SymTable} (h : Inv t) (h2 : Inv t2)
    (hmem : ∀ b : Binding, b ∈ bindingsList t ↔ b ∈ bindingsList t2) (k : List Nat) :
    SymTable_find t k = SymTable_find t2 k := by
  cases hf : SymTable_find t k with
  | some b =>
      obtain ⟨hb, hk⟩ := (find_eq_some_iff h k b).mp hf
      exact ((find_eq_some_iff h2 k b).mpr ⟨(hmem b).mp hb, hk⟩).symm
  | none =>
      have hall := (find_eq_none_iff h k).mp hf
      exact ((find_eq_none_iff h2 k).mpr (fun b hb => hall b ((hmem b).mpr hb))).symm

theorem mapsTo_iff_mem {t : SymTable} (h : Inv t) (k : List Nat) (v : Nat) :
    MapsTo t k v ↔ Binding.mk k v ∈ bindingsList t := by
  unfold MapsTo
  rw [find_eq_some_iff h]
  simp

theorem get_eq_of_find {t : SymTable} {k : List Nat} {b : Binding}
    (hf : SymTable_find t k = some b) : SymTable_get t k = b.Value := by
  unfold SymTable_get
  rw [hf]

theorem get_eq_zero_of_find_none {t : SymTable} {k : List Nat}
    (hf : SymTable_find t k = none) : SymTable_get t k = 0 := by
  unfold SymTable_get
  rw [hf]

/-! ## Helper lemmas: the rehash walk -/

theorem relocChain_some (alloc : Nat → Bool) (n : Nat) :
    ∀ (chain : List Binding) (arr : List (List Binding)) (c : Nat)
      (st : List (List Binding) × Nat),
      relocChain alloc n chain (arr, c) = some st →
      st.1 = chain.foldl (place n) arr := by
  intro chain
  induction chain with
  | nil =>
      intro arr c st h
      simp only [relocChain] at h
      cases h
      rfl
  | cons b rest ih =>
      intro arr c st h
      rw [relocChain] at h
      by_cases h0 : alloc c = false
      · simp [h0] at h
      · by_cases h1 : alloc (c + 1) = false
        · simp [h0, h1] at h
        · simp only [h0, h1, if_false, ite_false] at h
          rw [if_neg (by simp [h0]), if_neg (by simp [h1])] at h
          have h2 := ih _ _ _ h
          rw [List.foldl_cons]
          exact h2

theorem relocBuckets_some (alloc : Nat → Bool) (n : Nat) :
    ∀ (chains : List (List Binding)) (arr : List (List Binding)) (c : Nat)
      (st : List (List Binding) × Nat),
      relocBuckets alloc n chains (arr, c) = some st →
      st.1 = chains.flatten.foldl (place n) arr := by
  intro chains
  induction chains with
  | nil =>
      intro arr c st h
      simp only [relocBuckets] at h
      cases h
      rfl
  | cons chain rest ih =>
      intro arr c st h
      rw [relocBuckets] at h
      cases hrc : relocChain alloc n chain (arr, c) with
      | none => rw [hrc] at h; simp at h
      | some st2 =>
          rw [hrc] at h
          obtain ⟨arr2, c2⟩ := st2
          have h1 := relocChain_some alloc n chain arr c (arr2, c2) hrc
          have h2 := ih arr2 c2 st h
          rw [List.flatten_cons, List.foldl_append, ← h1]
          exact h2

theorem relocChain_allOk (n : Nat) :
    ∀ (chain : List Binding) (arr : List (List Binding)) (c : Nat),
      ∃ st, relocChain (fun _ => true) n chain (arr, c) = some st := by
  intro chain
  induction chain with
  | nil => intro arr c; exact ⟨(arr, c), rfl⟩
  | cons b rest ih =>
      intro arr c
      simpa [relocChain] using ih _ _

theorem relocBuckets_allOk (n : Nat) :
    ∀ (chains : List (List Binding)) (arr : List (List Binding)) (c : Nat),
      ∃ st, relocBuckets (fun _ => true) n chains (arr, c) = some st := by
  intro chains
  induction chains with
  | nil => intro arr c; exact ⟨(arr, c), rfl⟩
  | cons chain rest ih =>
      intro arr c
      obtain ⟨st2, hst2⟩ := relocChain_allOk n chain arr c
      obtain ⟨arr2, c2⟩ := st2
      obtain ⟨st, hst⟩ := ih arr2 c2
      refine ⟨st, ?_⟩
      rw [relocBuckets, hst2]
      exact hst

theorem length_foldl_place (n : Nat) :
    ∀ (l : List Binding) (arr : List (List Binding)),
      (l.foldl (place n) arr).length = arr.length := by
  intro l
  induction l with
  | nil => intro arr; rfl
  | cons b rest ih =>
      intro arr
      rw [List.foldl_cons, ih]
      exact List.length_set ..

theorem getD_foldl_place (n : Nat) (hn : 0 < n) :
    ∀ (l : List Binding) (arr : List (List Binding)), arr.length = n →
      ∀ i, i < n →
      (l.foldl (place n) arr).getD i []
        = (l.filter (fun b => SymTable_hash b.Key n == i)).reverse ++ arr.getD i [] := by
  intro l
  induction l with
  | nil => intro arr _ i _; simp
  | cons b rest ih =>
      intro arr hlen i hi
      rw [List.foldl_cons]
      have hlen2 : (place n arr b).length = n := by
        rw [place, List.length_set]
        exact hlen
      rw [ih (place n arr b) hlen2 i hi]
      by_cases hb : SymTable_hash b.Key n = i
      · have hfil : (b :: rest).filter (fun x => SymTable_hash x.Key n == i)
            = b :: rest.filter (fun x => SymTable_hash x.Key n == i) :=
          List.filter_cons_of_pos (by simp [hb])
        have hplace : (place n arr b).getD i [] = b :: arr.getD i [] := by
          rw [place, ← hb]
          exact getD_set_self _ _ (by rw [hlen]; exact hash_lt b.Key n hn) _ _
        rw [hfil, hplace, List.reverse_cons, List.append_assoc]
        rfl
      · have hfil : (b :: rest).filter (fun x => SymTable_hash x.Key n == i)
            = rest.filter (fun x => SymTable_hash x.Key n == i) :=
          List.filter_cons_of_neg (by simp [hb])
        have hplace : (place n arr b).getD i [] = arr.getD i [] := by
          rw [place]
          exact getD_set_ne _ _ _ hb _ _
        rw [hfil, hplace]

theorem count_flatten_foldl_place (n : Nat) (hn : 0 < n) (y : Binding) :
    ∀ (l : List Binding) (arr : List (List Binding)), arr.length = n →
      (l.foldl (place n) arr).flatten.count y = l.count y + arr.flatten.count y := by
  intro l
  induction l with
  | nil => intro arr _; simp
  | cons b rest ih =>
      intro arr hlen
      rw [List.foldl_cons]
      have hlen2 : (place n arr b).length = n := by
        rw [place, List.length_set]
        exact hlen
      rw [ih _ hlen2]
      have hset := count_flatten_set arr (SymTable_hash b.Key n)
        (by rw [hlen]; exact hash_lt b.Key n hn)
        (b :: arr.getD (SymTable_hash b.Key n) []) y
      rw [List.count_cons] at hset
      rw [List.count_cons]
      have hpl : (place n arr b).flatten.count y
          = (arr.set (SymTable_hash b.Key n)
              (b :: arr.getD (SymTable_hash b.Key n) [])).flatten.count y := rfl
      rw [hpl]
      omega

theorem expand_fail_or (f : Nat → Bool) (t : SymTable) :
    SymTable_expand f t = t ∨
    ∃ arr c, relocBuckets f (SIZES.getD (t.bucketCountOrder + 1) 0) t.Bindings
        (List.replicate (SIZES.getD (t.bucketCountOrder + 1) 0) [], 1) = some (arr, c) ∧
      SIZES.getD t.bucketCountOrder 0 ≠ MAX_SIZE ∧
      SymTable_expand f t =
        { Bindings := arr, size := t.size, bucketCountOrder := t.bucketCountOrder + 1 } := by
  unfold SymTable_expand
  by_cases hmax : SIZES.getD t.bucketCountOrder 0 = MAX_SIZE
  · left
    rw [if_pos hmax]
  · rw [if_neg hmax]
    by_cases h0 : f 0 = false
    · left
      rw [if_pos h0]
    · rw [if_neg h0]
      cases hreloc : relocBuckets f (SIZES.getD (t.bucketCountOrder + 1) 0) t.Bindings
          (List.replicate (SIZES.getD (t.bucketCountOrder + 1) 0) [], 1) with
      | none => left; rfl
      | some st =>
          right
          obtain ⟨arr, c⟩ := st
          exact ⟨arr, c, rfl, hmax, rfl⟩

theorem expand_spec (f : Nat → Bool) (t : SymTable) (h : Inv t) :
    Inv (SymTable_expand f t) ∧
    (bindingsList (SymTable_expand f t)).Perm (bindingsList t) ∧
    (SymTable_expand f t).size = t.size ∧
    ((SymTable_expand f t).bucketCountOrder = t.bucketCountOrder ∨
      (SymTable_expand f t).bucketCountOrder = t.bucketCountOrder + 1) := by
  rcases expand_fail_or f t with heq | ⟨arr, c, hreloc, hmax, heq⟩
  · rw [heq]
    exact ⟨h, List.Perm.refl _, rfl, Or.inl rfl⟩
  · have horder1 : t.bucketCountOrder + 1 < SIZES.length :=
      SIZES_succ_lt _ h.order_lt hmax
    have hn : 0 < SIZES.getD (t.bucketCountOrder + 1) 0 := SIZES_pos _ horder1
    have harr : arr = t.Bindings.flatten.foldl
        (place (SIZES.getD (t.bucketCountOrder + 1) 0))
        (List.replicate (SIZES.getD (t.bucketCountOrder + 1) 0) []) :=
      relocBuckets_some f _ t.Bindings _ 1 (arr, c) hreloc
    have hlen : arr.length = SIZES.getD (t.bucketCountOrder + 1) 0 := by
      rw [harr, length_foldl_place, List.length_replicate]
    have hrep : (List.replicate (SIZES.getD (t.bucketCountOrder + 1) 0)
        ([] : List Binding)).length = SIZES.getD (t.bucketCountOrder + 1) 0 :=
      List.length_replicate ..
    have hcount : ∀ y : Binding, arr.flatten.count y = (bindingsList t).count y := by
      intro y
      rw [harr, count_flatten_foldl_place _ hn y _ _ hrep, flatten_replicate_nil]
      simp [bindingsList]
    rw [heq]
    have hpermR : (bindingsList
        (SymTable.mk arr t.size (t.bucketCountOrder + 1))).Perm (bindingsList t) :=
      List.perm_iff_count.mpr (fun y => hcount y)
    refine ⟨?_, hpermR, rfl, Or.inr rfl⟩
    unfold Inv bucketOK
    refine ⟨horder1, ?_, ?_, ?_, ?_⟩
    · show arr.length = numBuckets _
      simpa [numBuckets] using hlen
    · intro i hi b hb
      have hi2 : i < SIZES.getD (t.bucketCountOrder + 1) 0 := by
        rw [← hlen]
        exact hi
      have hb2 : b ∈ arr.getD i [] := hb
      rw [harr, getD_foldl_place _ hn _ _ hrep i hi2, getD_replicate_nil,
        List.append_nil, List.mem_reverse, List.mem_filter] at hb2
      show SymTable_hash b.Key (numBuckets _) = i
      have hbh : SymTable_hash b.Key (SIZES.getD (t.bucketCountOrder + 1) 0) = i := by
        simpa using hb2.2
      simpa [numBuckets] using hbh
    · exact ((hpermR.map Binding.Key).nodup_iff).mpr h.keys_nodup
    · show t.size = (bindingsList _).length
      rw [hpermR.length_eq]
      exact h.size_eq

theorem expand_order (f : Nat → Bool) (t : SymTable) :
    (SymTable_expand f t).bucketCountOrder = t.bucketCountOrder ∨
    (SymTable_expand f t).bucketCountOrder = t.bucketCountOrder + 1 := by
  rcases expand_fail_or f t with heq | ⟨arr, c, _, _, heq⟩
  · rw [heq]; exact Or.inl rfl
  · rw [heq]; exact Or.inr rfl

/-! ## Helper lemmas: put -/

theorem put_false_eq (a : PutAlloc) (t : SymTable) (k : List Nat) (v : Nat)
    (h : (SymTable_put a t k v).2 = false) : SymTable_put a t k v = (t, false) := by
  unfold SymTable_put at h ⊢
  by_cases hc : SymTable_contains t k = true
  · simp [hc]
  · by_cases hb : a.bindingOk = false
    · simp [hc, hb]
    · by_cases hk2 : a.keyOk = false
      · simp [hc, hb, hk2]
      · simp [hc, hb, hk2] at h

theorem put_succeeds (a : PutAlloc) (t : SymTable) (k : List Nat) (v : Nat)
    (hc : SymTable_contains t k = false) (hb : a.bindingOk = true)
    (hk2 : a.keyOk = true) : (SymTable_put a t k v).2 = true := by
  unfold SymTable_put
  simp [hc, hb, hk2]

theorem put_mk_eq (a : PutAlloc) (t : SymTable) (k : List Nat) (v : Nat)
    (hc : SymTable_contains t k = false) (hb : a.bindingOk = true)
    (hk2 : a.keyOk = true) (t1 : SymTable)
    (ht1 : t1 = if numBuckets t ≤ t.size then SymTable_expand a.expandAlloc t else t) :
    SymTable_put a t k v = (SymTable.mk
      (t1.Bindings.set (SymTable_hash k (numBuckets t1))
        (Binding.mk k v :: t1.Bindings.getD (SymTable_hash k (numBuckets t1)) []))
      (t1.size + 1) t1.bucketCountOrder, true) := by
  subst ht1
  unfold SymTable_put
  simp only [hc, Bool.false_eq_true, if_false, hb, hk2, Bool.true_eq_false, ite_false]

theorem insert_step (t1 T2 : SymTable) (k : List Nat) (v : Nat) (h1 : Inv t1)
    (habs : ∀ b ∈ bindingsList t1, b.Key ≠ k)
    (hT2 : T2 = SymTable.mk
      (t1.Bindings.set (SymTable_hash k (numBuckets t1))
        (Binding.mk k v :: t1.Bindings.getD (SymTable_hash k (numBuckets t1)) []))
      (t1.size + 1) t1.bucketCountOrder) :
    Inv T2 ∧ SymTable_find T2 k = some (Binding.mk k v) ∧
    (∀ k2, k2 ≠ k → SymTable_find T2 k2 = SymTable_find t1 k2) ∧
    T2.size = t1.size + 1 ∧
    (bindingsList T2).Perm (Binding.mk k v :: bindingsList t1) := by
  have hlt : SymTable_hash k (numBuckets t1) < t1.Bindings.length := h1.hash_lt_len k
  have hB : T2.Bindings = t1.Bindings.set (SymTable_hash k (numBuckets t1))
      (Binding.mk k v :: t1.Bindings.getD (SymTable_hash k (numBuckets t1)) []) := by
    rw [hT2]
  have hsz : T2.size = t1.size + 1 := by rw [hT2]
  have ho : T2.bucketCountOrder = t1.bucketCountOrder := by rw [hT2]
  have hnb : numBuckets T2 = numBuckets t1 := by unfold numBuckets; rw [ho]
  have hperm : (bindingsList T2).Perm (Binding.mk k v :: bindingsList t1) := by
    rw [List.perm_iff_count]
    intro y
    have hset := count_flatten_set t1.Bindings (SymTable_hash k (numBuckets t1)) hlt
      (Binding.mk k v :: t1.Bindings.getD (SymTable_hash k (numBuckets t1)) []) y
    rw [List.count_cons] at hset
    have hTb : bindingsList T2 = (t1.Bindings.set (SymTable_hash k (numBuckets t1))
        (Binding.mk k v :: t1.Bindings.getD (SymTable_hash k (numBuckets t1)) [])).flatten := by
      unfold bindingsList
      rw [hB]
    rw [hTb, List.count_cons]
    have hbl : (bindingsList t1).count y = t1.Bindings.flatten.count y := rfl
    omega
  have hkey_notin : k ∉ (bindingsList t1).map Binding.Key := by
    intro hmem
    obtain ⟨b, hb, hkb⟩ := List.mem_map.mp hmem
    exact habs b hb hkb
  have hfind : SymTable_find T2 k = some (Binding.mk k v) := by
    unfold SymTable_find
    rw [hnb, hB, getD_set_self _ _ hlt]
    exact List.find?_cons_of_pos _ (by simp)
  refine ⟨?_, hfind, ?_, hsz, hperm⟩
  · unfold Inv bucketOK
    refine ⟨?_, ?_, ?_, ?_, ?_⟩
    · rw [ho]; exact h1.order_lt
    · rw [hB, List.length_set, hnb]; exact h1.len_eq
    · intro i hi b hb
      have hi2 : i < t1.Bindings.length := by
        rw [hB, List.length_set] at hi
        exact hi
      rw [hnb]
      by_cases hih : i = SymTable_hash k (numBuckets t1)
      · subst hih
        rw [hB, getD_set_self _ _ hlt] at hb
        rcases List.mem_cons.mp hb with rfl | hb2
        · rfl
        · exact h1.buckets _ hi2 b hb2
      · rw [hB, getD_set_ne _ _ _ (fun hEq => hih hEq.symm)] at hb
        exact h1.buckets _ hi2 b hb
    · have hpk : ((bindingsList T2).map Binding.Key).Perm
          (k :: (bindingsList t1).map Binding.Key) := by
        have := hperm.map Binding.Key
        simpa using this
      rw [hpk.nodup_iff, List.nodup_cons]
      exact ⟨hkey_notin, h1.keys_nodup⟩
    · rw [hsz, hperm.length_eq, List.length_cons, h1.size_eq]
  · intro k2 hk2
    unfold SymTable_find
    rw [hnb, hB]
    by_cases hh : SymTable_hash k2 (numBuckets t1) = SymTable_hash k (numBuckets t1)
    · rw [hh, getD_set_self _ _ hlt]
      have hne : ¬((Binding.mk k v).Key == k2) = true := by
        intro hEq
        exact hk2 (by simpa using hEq : k = k2).symm
      have hfind2 : List.find? (fun b => b.Key == k2)
          (Binding.mk k v :: t1.Bindings.getD (SymTable_hash k (numBuckets t1)) [])
          = List.find? (fun b => b.Key == k2)
            (t1.Bindings.getD (SymTable_hash k (numBuckets t1)) []) :=
        List.find?_cons_of_neg _ hne
      rw [hfind2]
    · rw [getD_set_ne _ _ _ (fun hEq => hh hEq.symm)]

theorem put_true_spec (a : PutAlloc) (t : SymTable) (k : List Nat) (v : Nat)
    (h : Inv t) (hs : (SymTable_put a t k v).2 = true) :
    Inv (SymTable_put a t k v).1 ∧
    SymTable_contains t k = false ∧
    SymTable_find (SymTable_put a t k v).1 k = some (Binding.mk k v) ∧
    (∀ k2, k2 ≠ k → SymTable_find (SymTable_put a t k v).1 k2 = SymTable_find t k2) ∧
    (SymTable_put a t k v).1.size = t.size + 1 ∧
    (bindingsList (SymTable_put a t k v).1).Perm (Binding.mk k v :: bindingsList t) := by
  by_cases hc : SymTable_contains t k = true
  · exfalso
    unfold SymTable_put at hs
    simp [hc] at hs
  · have hc2 : SymTable_contains t k = false := by
      simpa using hc
    by_cases hb : a.bindingOk = true
    · by_cases hk2 : a.keyOk = true
      · set t1 : SymTable :=
          if numBuckets t ≤ t.size then SymTable_expand a.expandAlloc t else t with ht1
        have h1 : Inv t1 ∧ (bindingsList t1).Perm (bindingsList t) ∧ t1.size = t.size := by
          by_cases hle : numBuckets t ≤ t.size
          · rw [ht1, if_pos hle]
            exact ⟨(expand_spec _ t h).1, (expand_spec _ t h).2.1, (expand_spec _ t h).2.2.1⟩
          · rw [ht1, if_neg hle]
            exact ⟨h, List.Perm.refl _, rfl⟩
        have habs1 : ∀ b ∈ bindingsList t1, b.Key ≠ k := fun b hbm =>
          (contains_false_iff h k).mp hc2 b (h1.2.1.mem_iff.mp hbm)
        have hput := put_mk_eq a t k v hc2 hb hk2 t1 ht1
        have hins := insert_step t1 _ k v h1.1 habs1 rfl
        rw [hput]
        refine ⟨hins.1, hc2, hins.2.1, ?_, ?_, ?_⟩
        · intro k2 hk2ne
          rw [hins.2.2.1 k2 hk2ne]
          exact find_congr h1.1 h (fun b => h1.2.1.mem_iff) k2
        · rw [hins.2.2.2.1, h1.2.2]
        · exact hins.2.2.2.2.trans ((h1.2.1).cons (Binding.mk k v))
      · exfalso
        unfold SymTable_put at hs
        simp [hc2, hb, (by simpa using hk2 : a.keyOk = false)] at hs
    · exfalso
      unfold SymTable_put at hs
      simp [hc2, (by simpa using hb : a.bindingOk = false)] at hs

theorem put_inv (a : PutAlloc) (t : SymTable) (k : List Nat) (v : Nat) (h : Inv t) :
    Inv (SymTable_put a t k v).1 := by
  cases hs : (SymTable_put a t k v).2 with
  | false => rw [put_false_eq a t k v hs]; exact h
  | true => exact (put_true_spec a t k v h hs).1

theorem put_order_le (a : PutAlloc) (t : SymTable) (k : List Nat) (v : Nat) :
    t.bucketCountOrder ≤ (SymTable_put a t k v).1.bucketCountOrder ∧
    (SymTable_put a t k v).1.bucketCountOrder ≤ t.bucketCountOrder + 1 := by
  unfold SymTable_put
  by_cases hc : SymTable_contains t k = true
  · simp [hc]
  · by_cases hb : a.bindingOk = false
    · simp [hc, hb]
    · by_cases hk2 : a.keyOk = false
      · simp [hc, hb, hk2]
      · simp only [hc, hb, hk2, Bool.false_eq_true, if_false, ite_false]
        by_cases hle : numBuckets t ≤ t.size
        · simp only [hle, if_true, ite_true]
          rcases expand_order a.expandAlloc t with he | he <;> simp [he]
        · simp [hle]

/-! ## Helper lemmas: remove -/

theorem removeChain_none_iff_find? (k : List Nat) :
    ∀ c : List Binding,
      removeChain k c = none ↔ c.find? (fun b => b.Key == k) = none := by
  intro c
  induction c with
  | nil => simp [removeChain]
  | cons hd tl ih =>
      rw [removeChain]
      by_cases hhd : (hd.Key == k) = true
      · have hf : List.find? (fun b => b.Key == k) (hd :: tl) = some hd :=
          List.find?_cons_of_pos _ hhd
        rw [if_pos hhd, hf]
        simp
      · have hf : List.find? (fun b => b.Key == k) (hd :: tl)
            = List.find? (fun b => b.Key == k) tl := List.find?_cons_of_neg _ hhd
        rw [if_neg hhd, hf, ← ih]
        cases hrc : removeChain k tl with
        | none => simp
        | some p => obtain ⟨v, r⟩ := p; simp

theorem removeChain_some_spec (k : List Nat) :
    ∀ (c : List Binding) (v : Nat) (c2 : List Binding),
      removeChain k c = some (v, c2) →
      ∃ pre post b, b.Key = k ∧ b.Value = v ∧ c = pre ++ b :: post ∧
        c2 = pre ++ post ∧ ∀ x ∈ pre, ¬((x.Key == k) = true) := by
  intro c
  induction c with
  | nil => intro v c2 h; simp [removeChain] at h
  | cons hd tl ih =>
      intro v c2 h
      rw [removeChain] at h
      by_cases hhd : (hd.Key == k) = true
      · rw [if_pos hhd] at h
        simp only [Option.some.injEq, Prod.mk.injEq] at h
        obtain ⟨hv, hc2⟩ := h
        exact ⟨[], tl, hd, by simpa using hhd, hv, by simp, by simp [hc2], by simp⟩
      · rw [if_neg hhd] at h
        cases hrc : removeChain k tl with
        | none => rw [hrc] at h; simp at h
        | some p =>
            obtain ⟨v2, r2⟩ := p
            rw [hrc] at h
            simp only [Option.some.injEq, Prod.mk.injEq] at h
            obtain ⟨hv, hc2⟩ := h
            obtain ⟨pre, post, b, hk3, hv3, htl, hr2, hpre⟩ := ih v2 r2 hrc
            refine ⟨hd :: pre, post, b, hk3, by rw [← hv]; exact hv3, ?_, ?_, ?_⟩
            · rw [List.cons_append, ← htl]
            · rw [← hc2, hr2, List.cons_append]
            · intro x hx
              rcases List.mem_cons.mp hx with rfl | hx2
              · exact hhd
              · exact hpre x hx2

theorem remove_none_eq (t : SymTable) (k : List Nat)
    (hf : SymTable_find t k = none) : SymTable_remove t k = (t, 0) := by
  unfold SymTable_remove
  have hrc : removeChain k
      (t.Bindings.getD (SymTable_hash k (numBuckets t)) []) = none :=
    (removeChain_none_iff_find? k _).mpr hf
  rw [hrc]

theorem find_some_key {t : SymTable} {k : List Nat} {b : Binding}
    (hf : SymTable_find t k = some b) : b.Key = k :=
  (find?_key_some hf).1

theorem remove_found_spec (t : SymTable) (k : List Nat) (v : Nat)
    (h : Inv t) (hm : MapsTo t k v) :
    (SymTable_remove t k).2 = v ∧
    (SymTable_remove t k).1.size + 1 = t.size ∧
    Inv (SymTable_remove t k).1 ∧
    SymTable_contains (SymTable_remove t k).1 k = false ∧
    SymTable_remove (SymTable_remove t k).1 k = ((SymTable_remove t k).1, 0) ∧
    (bindingsList t).Perm
      (Binding.mk k v :: bindingsList (SymTable_remove t k).1) := by
  have hlt : SymTable_hash k (numBuckets t) < t.Bindings.length := h.hash_lt_len k
  have hmem : Binding.mk k v ∈ t.Bindings.getD (SymTable_hash k (numBuckets t)) [] :=
    (find?_key_some hm).2
  cases hrc : removeChain k
      (t.Bindings.getD (SymTable_hash k (numBuckets t)) []) with
  | none =>
      exfalso
      rw [removeChain_none_iff_find? k _] at hrc
      unfold MapsTo SymTable_find at hm
      rw [hm] at hrc
      exact Option.noConfusion hrc
  | some p =>
      obtain ⟨v2, c2⟩ := p
      obtain ⟨pre, post, b, hk3, hv3, hbucket, hc2, hpre⟩ :=
        removeChain_some_spec k _ v2 c2 hrc
      have hcble : (t.Bindings.getD (SymTable_hash k (numBuckets t)) []).countP
          (fun x => x.Key == k) ≤ 1 :=
        le_trans (countP_getD_le_flatten _ _ _) (countP_key_le_one h k)
      have hbv : b = Binding.mk k v := by
        rcases List.mem_append.mp (hbucket ▸ hmem) with hin | hin
        · exact absurd (by simp) (hpre _ hin)
        · rcases List.mem_cons.mp hin with hEq | hin2
          · exact hEq.symm
          · exfalso
            have hcnt : (t.Bindings.getD (SymTable_hash k (numBuckets t)) []).countP
                (fun x => x.Key == k) ≥ 2 := by
              rw [hbucket, List.countP_append]
              have h1 : List.countP (fun x => x.Key == k) (b :: post)
                  = List.countP (fun x => x.Key == k) post + 1 :=
                List.countP_cons_of_pos _ _ (by simp [hk3])
              have h2 : 0 < List.countP (fun x => x.Key == k) post :=
                List.countP_pos_iff.mpr ⟨Binding.mk k v, hin2, by simp⟩
              omega
            omega
      have hv2v : v2 = v := by rw [← hv3, hbv]
      have hrem : SymTable_remove t k = (SymTable.mk
          (t.Bindings.set (SymTable_hash k (numBuckets t)) c2) (t.size - 1)
          t.bucketCountOrder, v2) := by
        unfold SymTable_remove
        rw [hrc]
      have hcount : ∀ y : Binding,
          (t.Bindings.set (SymTable_hash k (numBuckets t)) c2).flatten.count y
            + (if (b == y) = true then 1 else 0)
          = t.Bindings.flatten.count y := by
        intro y
        have hset := count_flatten_set t.Bindings (SymTable_hash k (numBuckets t))
          hlt c2 y
        have hbc : (t.Bindings.getD (SymTable_hash k (numBuckets t)) []).count y
            = c2.count y + (if (b == y) = true then 1 else 0) := by
          rw [hbucket, hc2, List.count_append, List.count_append, List.count_cons]
          omega
        omega
      have hperm : (bindingsList t).Perm
          (b :: (t.Bindings.set (SymTable_hash k (numBuckets t)) c2).flatten) := by
        rw [List.perm_iff_count]
        intro y
        rw [List.count_cons]
        have := hcount y
        have hbl : (bindingsList t).count y = t.Bindings.flatten.count y := rfl
        omega
      have hts : 1 ≤ t.size := by
        rw [h.size_eq]
        have : Binding.mk k v ∈ bindingsList t :=
          (mem_flatten_getD _ _).mpr ⟨_, hlt, hmem⟩
        exact List.length_pos.mpr (List.ne_nil_of_mem this)
      have hInv2 : Inv (SymTable.mk
          (t.Bindings.set (SymTable_hash k (numBuckets t)) c2) (t.size - 1)
          t.bucketCountOrder) := by
        unfold Inv bucketOK
        refine ⟨h.order_lt, ?_, ?_, ?_, ?_⟩
        · rw [List.length_set]
          exact h.len_eq
        · intro i hi b2 hb2
          have hi2 : i < t.Bindings.length := by
            rw [List.length_set] at hi
            exact hi
          show SymTable_hash b2.Key (numBuckets t) = i
          by_cases hih : i = SymTable_hash k (numBuckets t)
          · subst hih
            rw [getD_set_self _ _ hlt] at hb2
            have hb2m : b2 ∈ t.Bindings.getD (SymTable_hash k (numBuckets t)) [] := by
              rw [hbucket]
              rw [hc2] at hb2
              rcases List.mem_append.mp hb2 with hin | hin
              · exact List.mem_append.mpr (Or.inl hin)
              · exact List.mem_append.mpr (Or.inr (List.mem_cons.mpr (Or.inr hin)))
            exact h.buckets _ hi2 b2 hb2m
          · rw [getD_set_ne _ _ _ (fun hEq => hih hEq.symm)] at hb2
            exact h.buckets _ hi2 b2 hb2
        · have hpk := (hperm.map Binding.Key).nodup_iff.mp h.keys_nodup
          simp only [List.map_cons] at hpk
          exact hpk.of_cons
        · show t.size - 1
            = ((t.Bindings.set (SymTable_hash k (numBuckets t)) c2).flatten).length
          have hl := hperm.length_eq
          rw [List.length_cons] at hl
          rw [h.size_eq]
          omega
      have hnomatch : ∀ x ∈ (SymTable.mk
          (t.Bindings.set (SymTable_hash k (numBuckets t)) c2) (t.size - 1)
          t.bucketCountOrder).Bindings.flatten, ¬(x.Key = k) := by
        intro x hx hxk
        have hcp : (bindingsList t).countP (fun x => x.Key == k)
            = List.countP (fun x => x.Key == k)
              (b :: (t.Bindings.set (SymTable_hash k (numBuckets t)) c2).flatten) :=
          hperm.countP_eq _
        have hb1 : List.countP (fun x => x.Key == k)
            (b :: (t.Bindings.set (SymTable_hash k (numBuckets t)) c2).flatten)
            = List.countP (fun x => x.Key == k)
              (t.Bindings.set (SymTable_hash k (numBuckets t)) c2).flatten + 1 :=
          List.countP_cons_of_pos _ _ (by simp [hk3])
        have hb2 : 0 < List.countP (fun x => x.Key == k)
            (t.Bindings.set (SymTable_hash k (numBuckets t)) c2).flatten :=
          List.countP_pos_iff.mpr ⟨x, hx, by simp [hxk]⟩
        have hb3 := countP_key_le_one h k
        omega
      have hfind2 : SymTable_find (SymTable.mk
          (t.Bindings.set (SymTable_hash k (numBuckets t)) c2) (t.size - 1)
          t.bucketCountOrder) k = none := by
        rw [find_eq_none_iff hInv2 k]
        intro b2 hb2
        exact hnomatch b2 hb2
      rw [hrem]
      refine ⟨hv2v, ?_, hInv2, ?_, ?_, ?_⟩
      · show t.size - 1 + 1 = t.size
        omega
      · rw [contains_eq_false_iff_find]
        exact hfind2
      · have hrc2 : removeChain k ((SymTable.mk
            (t.Bindings.set (SymTable_hash k (numBuckets t)) c2) (t.size - 1)
            t.bucketCountOrder).Bindings.getD (SymTable_hash k (numBuckets
              (SymTable.mk (t.Bindings.set (SymTable_hash k (numBuckets t)) c2)
                (t.size - 1) t.bucketCountOrder))) []) = none :=
          (removeChain_none_iff_find? k _).mpr hfind2
        unfold SymTable_remove
        rw [hrc2]
      · rw [← hbv]
        exact hperm

theorem remove_inv (t : SymTable) (k : List Nat) (h : Inv t) :
    Inv (SymTable_remove t k).1 := by
  cases hf : SymTable_find t k with
  | none => rw [remove_none_eq t k hf]; exact h
  | some b =>
      have hm : MapsTo t k b.Value := by
        unfold MapsTo
        rw [hf, ← find_some_key hf]
      exact (remove_found_spec t k b.Value h hm).2.2.1

theorem remove_order (t : SymTable) (k : List Nat) :
    (SymTable_remove t k).1.bucketCountOrder = t.bucketCountOrder := by
  unfold SymTable_remove
  cases hrc : removeChain k (t.Bindings.getD (SymTable_hash k (numBuckets t)) []) with
  | none => rfl
  | some p => obtain ⟨v, c2⟩ := p; rfl

/-! ## Helper lemmas: replace -/

theorem replaceChain_map_key (k : List Nat) (v : Nat) :
    ∀ c : List Binding, (replaceChain k v c).map Binding.Key = c.map Binding.Key := by
  intro c
  induction c with
  | nil => rfl
  | cons hd tl ih =>
      rw [replaceChain]
      by_cases hhd : (hd.Key == k) = true
      · rw [if_pos hhd]
        simp
      · rw [if_neg hhd]
        simp [ih]

theorem replaceChain_mem_key (k : List Nat) (v : Nat) :
    ∀ c : List Binding, ∀ b2 ∈ replaceChain k v c, ∃ b ∈ c, b2.Key = b.Key := by
  intro c
  induction c with
  | nil => intro b2 hb2; simp [replaceChain] at hb2
  | cons hd tl ih =>
      intro b2 hb2
      rw [replaceChain] at hb2
      by_cases hhd : (hd.Key == k) = true
      · rw [if_pos hhd] at hb2
        rcases List.mem_cons.mp hb2 with rfl | hb3
        · exact ⟨hd, List.mem_cons.mpr (Or.inl rfl), rfl⟩
        · exact ⟨b2, List.mem_cons.mpr (Or.inr hb3), rfl⟩
      · rw [if_neg hhd] at hb2
        rcases List.mem_cons.mp hb2 with rfl | hb3
        · exact ⟨b2, List.mem_cons.mpr (Or.inl rfl), rfl⟩
        · obtain ⟨b, hb, hbk⟩ := ih b2 hb3
          exact ⟨b, List.mem_cons.mpr (Or.inr hb), hbk⟩

theorem replace_none_eq (t : SymTable) (k : List Nat) (v : Nat)
    (hf : SymTable_find t k = none) : SymTable_replace t k v = (t, 0) := by
  unfold SymTable_replace
  rw [hf]

theorem replace_some_snd (t : SymTable) (k : List Nat) (v : Nat) (b : Binding)
    (hf : SymTable_find t k = some b) : (SymTable_replace t k v).2 = b.Value := by
  unfold SymTable_replace
  rw [hf]

theorem replace_inv (t : SymTable) (k : List Nat) (v : Nat) (h : Inv t) :
    Inv (SymTable_replace t k v).1 := by
  cases hf : SymTable_find t k with
  | none => rw [replace_none_eq t k v hf]; exact h
  | some b =>
      have hlt : SymTable_hash k (numBuckets t) < t.Bindings.length := h.hash_lt_len k
      have hrep : SymTable_replace t k v = (SymTable.mk
          (t.Bindings.set (SymTable_hash k (numBuckets t))
            (replaceChain k v (t.Bindings.getD (SymTable_hash k (numBuckets t)) [])))
          t.size t.bucketCountOrder, b.Value) := by
        unfold SymTable_replace
        rw [hf]
      rw [hrep]
      have hmapkeys : ((SymTable.mk
          (t.Bindings.set (SymTable_hash k (numBuckets t))
            (replaceChain k v (t.Bindings.getD (SymTable_hash k (numBuckets t)) [])))
          t.size t.bucketCountOrder).Bindings.flatten).map Binding.Key
          = (bindingsList t).map Binding.Key := by
        show ((t.Bindings.set (SymTable_hash k (numBuckets t))
            (replaceChain k v
              (t.Bindings.getD (SymTable_hash k (numBuckets t)) []))).flatten).map
            Binding.Key = _
        rw [List.map_flatten, List.map_set, replaceChain_map_key]
        have hgd : (t.Bindings.map (List.map Binding.Key)).getD
            (SymTable_hash k (numBuckets t)) []
            = (t.Bindings.getD (SymTable_hash k (numBuckets t)) []).map Binding.Key := by
          rw [List.getD_eq_getElem _ _ (by simpa using hlt),
            List.getD_eq_getElem _ _ hlt, List.getElem_map]
        rw [← hgd, set_getD_self _ _ (by simpa using hlt) []]
        rw [← List.map_flatten]
        rfl
      unfold Inv bucketOK
      refine ⟨h.order_lt, ?_, ?_, ?_, ?_⟩
      · rw [List.length_set]
        exact h.len_eq
      · intro i hi b2 hb2
        have hi2 : i < t.Bindings.length := by
          rw [List.length_set] at hi
          exact hi
        show SymTable_hash b2.Key (numBuckets t) = i
        by_cases hih : i = SymTable_hash k (numBuckets t)
        · subst hih
          rw [getD_set_self _ _ hlt] at hb2
          obtain ⟨b3, hb3, hb3k⟩ := replaceChain_mem_key k v _ b2 hb2
          rw [hb3k]
          exact h.buckets _ hi2 b3 hb3
        · rw [getD_set_ne _ _ _ (fun hEq => hih hEq.symm)] at hb2
          exact h.buckets _ hi2 b2 hb2
      · show ((_ : List (List Binding)).flatten.map Binding.Key).Nodup
        rw [hmapkeys]
        exact h.keys_nodup
      · show t.size = (_ : List (List Binding)).flatten.length
        have hl := congrArg List.length hmapkeys
        rw [List.length_map, List.length_map] at hl
        rw [h.size_eq]
        exact hl.symm

theorem replace_order (t : SymTable) (k : List Nat) (v : Nat) :
    (SymTable_replace t k v).1.bucketCountOrder = t.bucketCountOrder := by
  unfold SymTable_replace
  cases hf : SymTable_find t k with
  | none => rfl
  | some b => rfl

/-! ## Reachability implies the invariant -/

theorem inv_new : Inv SymTable_new := by
  unfold Inv bucketOK
  refine ⟨?_, ?_, ?_, ?_, ?_⟩
  · show (0 : Nat) < 8
    omega
  · show (List.replicate (SIZES.getD 0 0) ([] : List Binding)).length = numBuckets SymTable_new
    rw [List.length_replicate]
    rfl
  · intro i hi b hb
    rw [show SymTable_new.Bindings = List.replicate (SIZES.getD 0 0) [] from rfl,
      getD_replicate_nil] at hb
    simp at hb
  · show ((bindingsList SymTable_new).map Binding.Key).Nodup
    unfold bindingsList
    rw [show SymTable_new.Bindings = List.replicate (SIZES.getD 0 0) [] from rfl,
      flatten_replicate_nil]
    simp
  · show SymTable_new.size = (bindingsList SymTable_new).length
    unfold bindingsList
    rw [show SymTable_new.Bindings = List.replicate (SIZES.getD 0 0) [] from rfl,
      flatten_replicate_nil]
    rfl

theorem reachable_inv {t : SymTable} (h : Reachable t) : Inv t := by
  induction h with
  | new => exact inv_new
  | put a k v _ ih => exact put_inv a _ k v ih
  | replace k v _ ih => exact replace_inv _ k v ih
  | remove k _ ih => exact remove_inv _ k ih

theorem contains_new (k : List Nat) : SymTable_contains SymTable_new k = false := by
  rw [contains_eq_false_iff_find]
  unfold SymTable_find
  rw [show SymTable_new.Bindings = List.replicate (SIZES.getD 0 0) [] from rfl,
    getD_replicate_nil]
  rfl

/-! ## Helper lemmas: folding a sequence of puts -/

theorem foldPut_spec :
    ∀ (ps : List (List Nat × Nat)) (t : SymTable), Inv t →
      (ps.map Prod.fst).Nodup → (∀ p ∈ ps, SymTable_contains t p.1 = false) →
      Inv (ps.foldl (fun t2 p => (SymTable_put allocOk t2 p.1 p.2).1) t) ∧
      (∀ p ∈ ps, SymTable_find
        (ps.foldl (fun t2 p => (SymTable_put allocOk t2 p.1 p.2).1) t) p.1
          = some (Binding.mk p.1 p.2)) ∧
      (∀ k, (∀ p ∈ ps, p.1 ≠ k) →
        SymTable_find (ps.foldl (fun t2 p => (SymTable_put allocOk t2 p.1 p.2).1) t) k
          = SymTable_find t k) ∧
      (ps.foldl (fun t2 p => (SymTable_put allocOk t2 p.1 p.2).1) t).size
        = t.size + ps.length := by
  intro ps
  induction ps with
  | nil => intro t h _ _; exact ⟨h, by simp, fun k _ => rfl, by simp⟩
  | cons p rest ih =>
      intro t h hnd hab
      rw [List.map_cons, List.nodup_cons] at hnd
      have hcf : SymTable_contains t p.1 = false := hab p (List.mem_cons.mpr (Or.inl rfl))
      have hs : (SymTable_put allocOk t p.1 p.2).2 = true :=
        put_succeeds allocOk t p.1 p.2 hcf rfl rfl
      have hspec := put_true_spec allocOk t p.1 p.2 h hs
      have habs2 : ∀ q ∈ rest, SymTable_contains (SymTable_put allocOk t p.1 p.2).1 q.1
          = false := by
        intro q hq
        have hqk : q.1 ≠ p.1 := by
          intro hEq
          exact hnd.1 (hEq ▸ List.mem_map.mpr ⟨q, hq, rfl⟩)
        have h1 := hspec.2.2.2.1 q.1 hqk
        rw [contains_eq_false_iff_find, h1, ← contains_eq_false_iff_find]
        exact hab q (List.mem_cons.mpr (Or.inr hq))
      have hrest := ih (SymTable_put allocOk t p.1 p.2).1 hspec.1 hnd.2 habs2
      simp only [List.foldl_cons]
      refine ⟨hrest.1, ?_, ?_, ?_⟩
      · intro q hq
        rcases List.mem_cons.mp hq with rfl | hq2
        · have hkeys : ∀ q2 ∈ rest, q2.1 ≠ q.1 := by
            intro q2 hq2 hEq
            exact hnd.1 (hEq ▸ List.mem_map.mpr ⟨q2, hq2, rfl⟩)
          rw [hrest.2.2.1 q.1 hkeys]
          exact hspec.2.2.1
        · exact hrest.2.1 q hq2
      · intro k hk
        have hpk : p.1 ≠ k := hk p (List.mem_cons.mpr (Or.inl rfl))
        rw [hrest.2.2.1 k (fun q hq => hk q (List.mem_cons.mpr (Or.inr hq)))]
        exact hspec.2.2.2.1 k (fun hEq => hpk hEq.symm)
      · rw [hrest.2.2.2, hspec.2.2.2.2.1, List.length_cons]
        omega

theorem expand_allOk_succeeds (t : SymTable)
    (hmax : SIZES.getD t.bucketCountOrder 0 ≠ MAX_SIZE) :
    (SymTable_expand (fun _ => true) t).bucketCountOrder = t.bucketCountOrder + 1 := by
  unfold SymTable_expand
  rw [if_neg hmax, if_neg (by simp)]
  obtain ⟨st, hst⟩ := relocBuckets_allOk (SIZES.getD (t.bucketCountOrder + 1) 0)
    t.Bindings (List.replicate (SIZES.getD (t.bucketCountOrder + 1) 0) []) 1
  obtain ⟨arr, c⟩ := st
  rw [hst]

theorem putOk_order_step (t : SymTable) (k : List Nat) (v : Nat) (h : Inv t)
    (hp : 509 < t.size → 1 ≤ t.bucketCountOrder) :
    509 < (SymTable_put allocOk t k v).1.size →
      1 ≤ (SymTable_put allocOk t k v).1.bucketCountOrder := by
  intro hgt
  cases hs : (SymTable_put allocOk t k v).2 with
  | false => rw [put_false_eq _ _ _ _ hs] at hgt ⊢; exact hp hgt
  | true =>
      have hspec := put_true_spec allocOk t k v h hs
      have hsz := hspec.2.2.2.2.1
      by_cases h1 : 1 ≤ t.bucketCountOrder
      · have hmono := (put_order_le allocOk t k v).1
        omega
      · have h0 : t.bucketCountOrder = 0 := by omega
        have hge : numBuckets t ≤ t.size := by
          unfold numBuckets
          rw [h0]
          have h509 : SIZES.getD 0 0 = 509 := rfl
          omega
        have hcf : SymTable_contains t k = false := hspec.2.1
        have hput := put_mk_eq allocOk t k v hcf rfl rfl _ rfl
        rw [hput]
        show 1 ≤ (if numBuckets t ≤ t.size then SymTable_expand allocOk.expandAlloc t
          else t).bucketCountOrder
        rw [if_pos hge]
        have hfn : allocOk.expandAlloc = fun _ => true := rfl
        rw [hfn, expand_allOk_succeeds t (by rw [h0]; decide)]
        omega

theorem foldPut_order :
    ∀ (ps : List (List Nat × Nat)) (t : SymTable), Inv t →
      (509 < t.size → 1 ≤ t.bucketCountOrder) →
      509 < (ps.foldl (fun t2 p => (SymTable_put allocOk t2 p.1 p.2).1) t).size →
      1 ≤ (ps.foldl (fun t2 p => (SymTable_put allocOk t2 p.1 p.2).1) t).bucketCountOrder := by
  intro ps
  induction ps with
  | nil => intro t h hp; simpa using hp
  | cons p rest ih =>
      intro t h hp
      simp only [List.foldl_cons]
      exact ih _ (put_inv _ _ _ _ h) (putOk_order_step t p.1 p.2 h hp)

/-! ## Helper lemmas: the hash -/

theorem foldl_hash_mod (l : List Nat) :
    ∀ a : Nat, l.foldl (fun h c => (h * 65599 + c) % WORD) (a % WORD)
      = (l.foldl (fun h c => h * 65599 + c) a) % WORD := by
  induction l with
  | nil => intro a; rfl
  | cons c rest ih =>
      intro a
      rw [List.foldl_cons, List.foldl_cons]
      have h1 : (a % WORD * 65599 + c) % WORD = (a * 65599 + c) % WORD := by
        unfold WORD
        omega
      rw [h1, ih (a * 65599 + c)]

theorem hash_eq_refBucket (k : List Nat) (c : Nat) :
    SymTable_hash k c = refBucket k c := by
  unfold SymTable_hash refBucket
  conv_lhs => rw [show (0 : Nat) = 0 % WORD from (Nat.zero_mod WORD).symm]
  rw [foldl_hash_mod]

/-! ## Helper lemmas: the map traversal -/

theorem map_eq_foldl_visits {α : Type} (t : SymTable) (f : List Nat → Nat → α → α)
    (e : α) :
    SymTable_map t f e = (mapVisits t).foldl (fun acc p => f p.1 p.2 acc) e := by
  unfold SymTable_map mapVisits bindingsList
  rw [List.foldl_map, List.foldl_flatten]

theorem mapVisits_nodup {t : SymTable} (h : Inv t) : (mapVisits t).Nodup := by
  have hn := h.keys_nodup
  have hfst : (mapVisits t).map Prod.fst = (bindingsList t).map Binding.Key := by
    unfold mapVisits
    rw [List.map_map]
    rfl
  exact List.Nodup.of_map Prod.fst (by rw [hfst]; exact hn)

theorem count_one_of_nodup_mem {α : Type} [BEq α] [LawfulBEq α] :
    ∀ {l : List α} {a : α}, l.Nodup → a ∈ l → l.count a = 1 := by
  intro l
  induction l with
  | nil => intro a _ ha; simp at ha
  | cons hd tl ih =>
      intro a hn ha
      rw [List.nodup_cons] at hn
      rcases List.mem_cons.mp ha with rfl | ha2
      · rw [List.count_cons_self, List.count_eq_zero.mpr hn.1]
      · have hne : hd ≠ a := fun hEq => hn.1 (hEq ▸ ha2)
        rw [List.count_cons, if_neg (by simp [hne])]
        simp [ih hn.2 ha2]

theorem mapVisits_count_one {t : SymTable} (h : Inv t) (k : List Nat) (v : Nat)
    (hm : MapsTo t k v) : (mapVisits t).count (k, v) = 1 := by
  have hmem : (k, v) ∈ mapVisits t := by
    unfold mapVisits
    exact List.mem_map.mpr ⟨Binding.mk k v, (mapsTo_iff_mem h k v).mp hm, rfl⟩
  exact count_one_of_nodup_mem (mapVisits_nodup h) hmem

theorem mapVisits_mapsTo {t : SymTable} (h : Inv t) (p : List Nat × Nat)
    (hp : p ∈ mapVisits t) : MapsTo t p.1 p.2 := by
  unfold mapVisits at hp
  obtain ⟨b, hb, hbp⟩ := List.mem_map.mp hp
  rw [mapsTo_iff_mem h, ← hbp]
  exact hb

/-! ## Helper lemmas: remaining failure and tier-boundary branches -/

theorem put_contains_eq (a : PutAlloc) (t : SymTable) (k : List Nat) (v : Nat)
    (hc : SymTable_contains t k = true) : SymTable_put a t k v = (t, false) := by
  unfold SymTable_put
  simp [hc]

theorem put_bindingFail (a : PutAlloc) (t : SymTable) (k : List Nat) (v : Nat)
    (hb : a.bindingOk = false) : SymTable_put a t k v = (t, false) := by
  unfold SymTable_put
  by_cases hc : SymTable_contains t k = true
  · simp [hc]
  · simp [hc, hb]

theorem put_keyFail (a : PutAlloc) (t : SymTable) (k : List Nat) (v : Nat)
    (hk2 : a.keyOk = false) : SymTable_put a t k v = (t, false) := by
  unfold SymTable_put
  by_cases hc : SymTable_contains t k = true
  · simp [hc]
  · by_cases hb : a.bindingOk = false
    · simp [hc, hb]
    · simp [hc, hb, hk2]

theorem expand_alloc0_fail (f : Nat → Bool) (t : SymTable) (h0 : f 0 = false) :
    SymTable_expand f t = t := by
  unfold SymTable_expand
  by_cases hmax : SIZES.getD t.bucketCountOrder 0 = MAX_SIZE
  · rw [if_pos hmax]
  · rw [if_neg hmax, if_pos h0]

theorem expand_reloc_fail (f : Nat → Bool) (t : SymTable)
    (hrel : relocBuckets f (SIZES.getD (t.bucketCountOrder + 1) 0) t.Bindings
      (List.replicate (SIZES.getD (t.bucketCountOrder + 1) 0) [], 1) = none) :
    SymTable_expand f t = t := by
  unfold SymTable_expand
  by_cases hmax : SIZES.getD t.bucketCountOrder 0 = MAX_SIZE
  · rw [if_pos hmax]
  · rw [if_neg hmax]
    by_cases h0 : f 0 = false
    · rw [if_pos h0]
    · rw [if_neg h0, hrel]

theorem put_expand_failed_spec (a : PutAlloc) (t : SymTable) (k : List Nat) (v : Nat)
    (h : Inv t) (hb : a.bindingOk = true) (hk2 : a.keyOk = true)
    (hc : SymTable_contains t k = false)
    (hex : SymTable_expand a.expandAlloc t = t) :
    (SymTable_put a t k v).2 = true ∧
    (SymTable_put a t k v).1.bucketCountOrder = t.bucketCountOrder ∧
    SymTable_get (SymTable_put a t k v).1 k = v := by
  have hput := put_mk_eq a t k v hc hb hk2 _ rfl
  have ht1 : (if numBuckets t ≤ t.size then SymTable_expand a.expandAlloc t else t)
      = t := by
    by_cases hle : numBuckets t ≤ t.size
    · rw [if_pos hle, hex]
    · rw [if_neg hle]
  rw [ht1] at hput
  have habs := (contains_false_iff h k).mp hc
  have hins := insert_step t _ k v h habs rfl
  refine ⟨by rw [hput], by rw [hput], ?_⟩
  rw [hput]
  exact get_eq_of_find hins.2.1

theorem put_order_of_expand_id (a : PutAlloc) (t : SymTable) (k : List Nat) (v : Nat)
    (hex : SymTable_expand a.expandAlloc t = t) :
    (SymTable_put a t k v).1.bucketCountOrder = t.bucketCountOrder := by
  unfold SymTable_put
  by_cases hc : SymTable_contains t k = true
  · simp [hc]
  · by_cases hb : a.bindingOk = false
    · simp [hc, hb]
    · by_cases hk2 : a.keyOk = false
      · simp [hc, hb, hk2]
      · simp only [hc, hb, hk2, Bool.false_eq_true, if_false, ite_false]
        by_cases hle : numBuckets t ≤ t.size
        · simp [hle, hex]
        · simp [hle]

/-! ## Fixture facts -/

theorem tA_find : SymTable_find tA [1] = some (Binding.mk [1] 5) :=
  (put_true_spec allocOk SymTable_new [1] 5 inv_new
    (put_succeeds allocOk SymTable_new [1] 5 (contains_new [1]) rfl rfl)).2.2.1

theorem tA_contains : SymTable_contains tA [1] = true := by
  unfold SymTable_contains
  rw [tA_find]
  rfl

theorem tA_get : SymTable_get tA [1] = 5 := get_eq_of_find tA_find

theorem tA_inv : Inv tA := put_inv allocOk SymTable_new [1] 5 inv_new

theorem tA_contains2 : SymTable_contains tA [2] = false := by
  rw [contains_eq_false_iff_find]
  have hspec := put_true_spec allocOk SymTable_new [1] 5 inv_new
    (put_succeeds allocOk SymTable_new [1] 5 (contains_new [1]) rfl rfl)
  show SymTable_find (SymTable_put allocOk SymTable_new [1] 5).1 [2] = none
  rw [hspec.2.2.2.1 [2] (by decide)]
  exact (contains_eq_false_iff_find SymTable_new [2]).mp (contains_new [2])

theorem tB_find : SymTable_find tB [2] = some (Binding.mk [2] 6) :=
  (put_true_spec allocOk SymTable_new [2] 6 inv_new
    (put_succeeds allocOk SymTable_new [2] 6 (contains_new [2]) rfl rfl)).2.2.1

theorem tB_mapsTo : MapsTo tB [2] 6 := tB_find

theorem tB_reach : Reachable tB := Reachable.put allocOk [2] 6 Reachable.new

theorem c1ps_length : c1ps.length = 510 := by
  unfold c1ps
  rw [List.length_map, List.length_range]

theorem c1ps_nodup : (c1ps.map Prod.fst).Nodup := by
  unfold c1ps
  rw [List.map_map]
  apply List.Nodup.map ?_ (List.nodup_range 510)
  intro i j hij
  simp only [Function.comp_apply, List.cons.injEq, and_true] at hij
  omega

theorem tC_reach : Reachable (buildTable c9ps) := by
  show Reachable (SymTable_put allocOk (SymTable_put allocOk SymTable_new [97] 1).1 [98] 2).1
  exact Reachable.put allocOk [98] 2 (Reachable.put allocOk [97] 1 Reachable.new)

theorem c9_mapsTo : MapsTo (buildTable c9ps) [97] 1 := by
  have hspec := foldPut_spec c9ps SymTable_new inv_new (by simp [c9ps])
    (fun p _ => contains_new p.1)
  exact hspec.2.1 ([97], 1) (by simp [c9ps])

/-! ## Claim theorems -/

/-- C1: for every sequence of more than 509 distinct keys inserted by
successful put calls, the table crosses the initial capacity tier of
509 (the tier index ends at least at 1, so a rehash happened), and get
afterwards returns, for every inserted key, exactly the value that was
inserted with it: rehashing relocates every binding and never loses or
corrupts one. -/
theorem rehash_preserves_get (ps : List (List Nat × Nat))
    (hnd : (ps.map Prod.fst).Nodup) (hlen : 509 < ps.length) :
    1 ≤ (buildTable ps).bucketCountOrder ∧
    ∀ p ∈ ps, SymTable_get (buildTable ps) p.1 = p.2 := by
  have hspec := foldPut_spec ps SymTable_new inv_new hnd
    (fun p _ => contains_new p.1)
  constructor
  · apply foldPut_order ps SymTable_new inv_new
    · intro hx
      rw [show SymTable_new.size = 0 from rfl] at hx
      omega
    · rw [hspec.2.2.2, show SymTable_new.size = 0 from rfl]
      omega
  · intro p hp
    exact get_eq_of_find (hspec.2.1 p hp)

/-- Witness for C1: 510 concrete distinct two-byte keys. -/
theorem rehash_preserves_get_witness :
    (c1ps.map Prod.fst).Nodup ∧ 509 < c1ps.length ∧
    (1 ≤ (buildTable c1ps).bucketCountOrder ∧
      ∀ p ∈ c1ps, SymTable_get (buildTable c1ps) p.1 = p.2) :=
  ⟨c1ps_nodup, by rw [c1ps_length]; omega,
    rehash_preserves_get c1ps c1ps_nodup (by rw [c1ps_length]; omega)⟩

/-- C2: for every reachable store and key not currently present, if
put returns success then an immediately following get on that key
returns exactly the value reference that was inserted. -/
theorem put_then_get (a : PutAlloc) (t : SymTable) (k : List Nat) (v : Nat)
    (hr : Reachable t) (habs : SymTable_contains t k = false)
    (hs : (SymTable_put a t k v).2 = true) :
    SymTable_get (SymTable_put a t k v).1 k = v :=
  get_eq_of_find (put_true_spec a t k v (reachable_inv hr) hs).2.2.1

/-- Witness for C2 on the empty store. -/
theorem put_then_get_witness :
    SymTable_contains SymTable_new [1] = false ∧
    (SymTable_put allocOk SymTable_new [1] 5).2 = true ∧
    SymTable_get (SymTable_put allocOk SymTable_new [1] 5).1 [1] = 5 :=
  ⟨contains_new [1],
    put_succeeds allocOk SymTable_new [1] 5 (contains_new [1]) rfl rfl,
    put_then_get allocOk SymTable_new [1] 5 Reachable.new (contains_new [1])
      (put_succeeds allocOk SymTable_new [1] 5 (contains_new [1]) rfl rfl)⟩

/-- C3: when the key is already present with value v1, a second put
with value v2 returns failure and leaves the store literally unchanged
(same size, capacity, and bindings), and get still returns v1:
duplicate keys are rejected, never overwritten. -/
theorem put_duplicate_rejected (a : PutAlloc) (t : SymTable) (k : List Nat)
    (v1 v2 : Nat) (hc : SymTable_contains t k = true) (hv : SymTable_get t k = v1) :
    SymTable_put a t k v2 = (t, false) ∧
    SymTable_get (SymTable_put a t k v2).1 k = v1 := by
  have hpe : SymTable_put a t k v2 = (t, false) := put_contains_eq a t k v2 hc
  exact ⟨hpe, by rw [hpe]; exact hv⟩

/-- Witness for C3 on a one-binding store. -/
theorem put_duplicate_rejected_witness :
    SymTable_contains tA [1] = true ∧ SymTable_get tA [1] = 5 ∧
    (SymTable_put allocOk tA [1] 7 = (tA, false) ∧
      SymTable_get (SymTable_put allocOk tA [1] 7).1 [1] = 5) :=
  ⟨tA_contains, tA_get, put_duplicate_rejected allocOk tA [1] 5 7 tA_contains tA_get⟩

/-- C4: for every key and positive capacity, the bucket index equals
the reference algorithm written from the spec (wraparound multiply-add
with multiplier 65599 over the key bytes, reduced modulo the
capacity), and the bucket index is always below the capacity; as a
function, the same key always maps to the same bucket for a given
capacity. -/
theorem hash_matches_reference (k : List Nat) (c : Nat) (hc : 0 < c) :
    SymTable_hash k c = refBucket k c ∧ SymTable_hash k c < c :=
  ⟨hash_eq_refBucket k c, hash_lt k c hc⟩

/-- Witness for C4 on the two-byte key of the string hi with the
initial capacity 509. -/
theorem hash_matches_reference_witness :
    0 < 509 ∧ (SymTable_hash [104, 105] 509 = refBucket [104, 105] 509 ∧
      SymTable_hash [104, 105] 509 < 509) :=
  ⟨by omega, hash_matches_reference [104, 105] 509 (by omega)⟩

/-- C5: allocation failures leave the store in its prior state: a
failed Binding malloc or key-copy calloc makes put return failure with
the store unchanged; a failed bucket-array allocation or a failed
allocation during the relocation walk makes expand return the store
unchanged (original tier and array); and when rehash fails that way,
the enclosing put still inserts into the unexpanded table and reports
success — rehash failure never propagates as a put failure. -/
theorem alloc_failure_safety (a : PutAlloc) (f : Nat → Bool) (t : SymTable)
    (k : List Nat) (v : Nat) (hInv : Inv t) :
    (a.bindingOk = false → SymTable_put a t k v = (t, false)) ∧
    (a.keyOk = false → SymTable_put a t k v = (t, false)) ∧
    (f 0 = false → SymTable_expand f t = t) ∧
    (relocBuckets f (SIZES.getD (t.bucketCountOrder + 1) 0) t.Bindings
        (List.replicate (SIZES.getD (t.bucketCountOrder + 1) 0) [], 1) = none →
      SymTable_expand f t = t) ∧
    (a.bindingOk = true → a.keyOk = true → SymTable_contains t k = false →
      SymTable_expand a.expandAlloc t = t →
      (SymTable_put a t k v).2 = true ∧
      (SymTable_put a t k v).1.bucketCountOrder = t.bucketCountOrder ∧
      SymTable_get (SymTable_put a t k v).1 k = v) :=
  ⟨fun hb => put_bindingFail a t k v hb,
   fun hk2 => put_keyFail a t k v hk2,
   fun h0 => expand_alloc0_fail f t h0,
   fun hrel => expand_reloc_fail f t hrel,
   fun hb hk2 hc hex => put_expand_failed_spec a t k v hInv hb hk2 hc hex⟩

/-- Witness for C5: each failure oracle applied to a concrete store. -/
theorem alloc_failure_safety_witness :
    SymTable_put aNoBinding tA [2] 7 = (tA, false) ∧
    SymTable_put aNoKey tA [2] 7 = (tA, false) ∧
    SymTable_expand (fun _ => false) tA = tA ∧
    ((SymTable_put aNoExpand tA [2] 7).2 = true ∧
      (SymTable_put aNoExpand tA [2] 7).1.bucketCountOrder = tA.bucketCountOrder ∧
      SymTable_get (SymTable_put aNoExpand tA [2] 7).1 [2] = 7) :=
  ⟨(alloc_failure_safety aNoBinding (fun _ => false) tA [2] 7 tA_inv).1 rfl,
   (alloc_failure_safety aNoKey (fun _ => false) tA [2] 7 tA_inv).2.1 rfl,
   (alloc_failure_safety aNoBinding (fun _ => false) tA [2] 7 tA_inv).2.2.1 rfl,
   (alloc_failure_safety aNoExpand (fun _ => false) tA [2] 7 tA_inv).2.2.2.2 rfl rfl
     tA_contains2 (expand_alloc0_fail _ tA rfl)⟩

/-- C6: for every reachable store in which key k is bound to value v,
remove returns v and decrements the length by exactly one; afterwards
contains is false and a second remove returns the not-found marker
(NULL, 0) without further mutation. -/
theorem remove_after_put (t : SymTable) (k : List Nat) (v : Nat)
    (hr : Reachable t) (hm : MapsTo t k v) :
    (SymTable_remove t k).2 = v ∧
    SymTable_getLength (SymTable_remove t k).1 + 1 = SymTable_getLength t ∧
    SymTable_contains (SymTable_remove t k).1 k = false ∧
    SymTable_remove ((SymTable_remove t k).1) k = ((SymTable_remove t k).1, 0) := by
  have hspec := remove_found_spec t k v (reachable_inv hr) hm
  exact ⟨hspec.1, hspec.2.1, hspec.2.2.2.1, hspec.2.2.2.2.1⟩

/-- Witness for C6 on a one-binding store. -/
theorem remove_after_put_witness :
    MapsTo tB [2] 6 ∧
    ((SymTable_remove tB [2]).2 = 6 ∧
      SymTable_getLength (SymTable_remove tB [2]).1 + 1 = SymTable_getLength tB ∧
      SymTable_contains (SymTable_remove tB [2]).1 [2] = false ∧
      SymTable_remove ((SymTable_remove tB [2]).1) [2]
        = ((SymTable_remove tB [2]).1, 0)) :=
  ⟨tB_mapsTo, remove_after_put tB [2] 6 tB_reach tB_mapsTo⟩

/-- C7: for every reachable store, getLength equals the total number
of bindings across all bucket chains, and after N successful puts of
distinct keys into a new store getLength returns N. -/
theorem getLength_counts_bindings (t : SymTable) (hr : Reachable t) :
    SymTable_getLength t = (bindingsList t).length ∧
    ∀ ps : List (List Nat × Nat), (ps.map Prod.fst).Nodup →
      SymTable_getLength (buildTable ps) = ps.length := by
  refine ⟨(reachable_inv hr).size_eq, ?_⟩
  intro ps hnd
  have hspec := foldPut_spec ps SymTable_new inv_new hnd (fun p _ => contains_new p.1)
  unfold buildTable SymTable_getLength
  rw [hspec.2.2.2, show SymTable_new.size = 0 from rfl]
  omega

/-- Witness for C7. -/
theorem getLength_counts_bindings_witness :
    SymTable_getLength tB = (bindingsList tB).length ∧
    SymTable_getLength (buildTable [([1], 2)]) = 1 :=
  ⟨(getLength_counts_bindings tB tB_reach).1,
   (getLength_counts_bindings tB tB_reach).2 [([1], 2)] (by simp)⟩

/-- C8: the capacity tier starts at the first entry of the fixed
sequence (509 buckets), advances by at most one tier per rehash, never
decreases under put, remove, or replace, and once the final tier
(65521) is reached no operation changes the capacity again. -/
theorem capacity_monotone (t : SymTable) (a : PutAlloc) (f : Nat → Bool)
    (k : List Nat) (v v2 : Nat) :
    SymTable_new.bucketCountOrder = 0 ∧
    numBuckets SymTable_new = 509 ∧
    t.bucketCountOrder ≤ (SymTable_expand f t).bucketCountOrder ∧
    (SymTable_expand f t).bucketCountOrder ≤ t.bucketCountOrder + 1 ∧
    t.bucketCountOrder ≤ (SymTable_put a t k v).1.bucketCountOrder ∧
    (SymTable_put a t k v).1.bucketCountOrder ≤ t.bucketCountOrder + 1 ∧
    (SymTable_remove t k).1.bucketCountOrder = t.bucketCountOrder ∧
    (SymTable_replace t k v2).1.bucketCountOrder = t.bucketCountOrder ∧
    (t.bucketCountOrder = 7 →
      numBuckets t = MAX_SIZE ∧
      SymTable_expand f t = t ∧
      (SymTable_put a t k v).1.bucketCountOrder = 7 ∧
      (SymTable_remove t k).1.bucketCountOrder = 7 ∧
      (SymTable_replace t k v2).1.bucketCountOrder = 7) := by
  have hexp := expand_order f t
  have hput := put_order_le a t k v
  refine ⟨rfl, rfl, ?_, ?_, hput.1, hput.2, remove_order t k, replace_order t k v2, ?_⟩
  · rcases hexp with he | he <;> omega
  · rcases hexp with he | he <;> omega
  · intro h7
    have hmax : SIZES.getD t.bucketCountOrder 0 = MAX_SIZE := by
      rw [h7]
      rfl
    have hnb : numBuckets t = MAX_SIZE := hmax
    have hexp7 : SymTable_expand f t = t := by
      unfold SymTable_expand
      rw [if_pos hmax]
    have hexp7a : SymTable_expand a.expandAlloc t = t := by
      unfold SymTable_expand
      rw [if_pos hmax]
    refine ⟨hnb, hexp7, ?_, ?_, ?_⟩
    · rw [put_order_of_expand_id a t k v hexp7a, h7]
    · rw [remove_order t k, h7]
    · rw [replace_order t k v2, h7]

/-- Witness for C8 with an empty store at the final tier. -/
theorem capacity_monotone_witness :
    t7.bucketCountOrder = 7 ∧
    numBuckets t7 = MAX_SIZE ∧
    SymTable_expand (fun _ => true) t7 = t7 ∧
    (SymTable_put allocOk t7 [1] 5).1.bucketCountOrder = 7 := by
  have h := (capacity_monotone t7 allocOk (fun _ => true) [1] 5 6).2.2.2.2.2.2.2.2 rfl
  exact ⟨rfl, h.1, h.2.1, h.2.2.1⟩

/-- C9: for every reachable store, map folds the visitor over exactly
the visit sequence of the table (buckets in ascending index order,
each chain head to tail), passing the key and value of each binding and the
threaded extra context; every bound pair is visited exactly once and
everything visited is a bound pair; map itself returns only the folded
context, mutating nothing. -/
theorem map_visits_each_binding_once {α : Type} (t : SymTable)
    (f : List Nat → Nat → α → α) (e : α) (hr : Reachable t) :
    SymTable_map t f e = (mapVisits t).foldl (fun acc p => f p.1 p.2 acc) e ∧
    (∀ k v, MapsTo t k v → (mapVisits t).count (k, v) = 1) ∧
    (∀ p ∈ mapVisits t, MapsTo t p.1 p.2) :=
  ⟨map_eq_foldl_visits t f e,
   fun k v hm => mapVisits_count_one (reachable_inv hr) k v hm,
   fun p hp => mapVisits_mapsTo (reachable_inv hr) p hp⟩

/-- Witness for C9 on the two-binding store of the example in the spec. -/
theorem map_visits_each_binding_once_witness :
    MapsTo (buildTable c9ps) [97] 1 ∧
    SymTable_map (buildTable c9ps) (fun _ v acc => acc + v) 0
      = (mapVisits (buildTable c9ps)).foldl
          (fun acc p => (fun _ v acc2 => acc2 + v : List Nat → Nat → Nat → Nat)
            p.1 p.2 acc) 0 ∧
    (mapVisits (buildTable c9ps)).count ([97], 1) = 1 :=
  ⟨c9_mapsTo,
   (map_visits_each_binding_once (buildTable c9ps) (fun _ v acc => acc + v) 0
     tC_reach).1,
   (map_visits_each_binding_once (buildTable c9ps) (fun _ v acc => acc + v) 0
     tC_reach).2.1 [97] 1 c9_mapsTo⟩

/-- C10: a NULL value reference (0) is a legal stored value: put of
NULL succeeds and contains then reports true, but get, replace and
remove each return NULL both when the key is absent and when it is
present bound to NULL, so their NULL return does not distinguish
not-found from a NULL-valued binding. -/
theorem null_value_ambiguity (t : SymTable) (k : List Nat) (v2 : Nat)
    (hr : Reachable t) (habs : SymTable_contains t k = false) :
    (SymTable_put allocOk t k 0).2 = true ∧
    SymTable_contains (SymTable_put allocOk t k 0).1 k = true ∧
    SymTable_get t k = 0 ∧
    (SymTable_remove t k).2 = 0 ∧
    (SymTable_replace t k v2).2 = 0 ∧
    SymTable_get (SymTable_put allocOk t k 0).1 k = 0 ∧
    (SymTable_remove (SymTable_put allocOk t k 0).1 k).2 = 0 ∧
    (SymTable_replace (SymTable_put allocOk t k 0).1 k v2).2 = 0 := by
  have h := reachable_inv hr
  have hfn : SymTable_find t k = none := (contains_eq_false_iff_find t k).mp habs
  have hs : (SymTable_put allocOk t k 0).2 = true :=
    put_succeeds allocOk t k 0 habs rfl rfl
  have hspec := put_true_spec allocOk t k 0 h hs
  refine ⟨hs, ?_, get_eq_zero_of_find_none hfn, ?_, ?_, ?_, ?_, ?_⟩
  · unfold SymTable_contains
    rw [hspec.2.2.1]
    rfl
  · rw [remove_none_eq t k hfn]
  · rw [replace_none_eq t k v2 hfn]
  · exact get_eq_of_find hspec.2.2.1
  · exact (remove_found_spec _ k 0 hspec.1 hspec.2.2.1).1
  · rw [replace_some_snd _ k v2 _ hspec.2.2.1]

/-- Witness for C10 on the empty store. -/
theorem null_value_ambiguity_witness :
    SymTable_contains SymTable_new [3] = false ∧
    ((SymTable_put allocOk SymTable_new [3] 0).2 = true ∧
      SymTable_contains (SymTable_put allocOk SymTable_new [3] 0).1 [3] = true ∧
      SymTable_get SymTable_new [3] = 0 ∧
      (SymTable_remove SymTable_new [3]).2 = 0 ∧
      (SymTable_replace SymTable_new [3] 9).2 = 0 ∧
      SymTable_get (SymTable_put allocOk SymTable_new [3] 0).1 [3] = 0 ∧
      (SymTable_remove (SymTable_put allocOk SymTable_new [3] 0).1 [3]).2 = 0 ∧
      (SymTable_replace (SymTable_put allocOk SymTable_new [3] 0).1 [3] 9).2 = 0) :=
  ⟨contains_new [3],
    null_value_ambiguity SymTable_new [3] 9 Reachable.new (contains_new [3])⟩

end SymTableHash
